import Mathlib

/-!
Verification development for the checklist data-reconciliation core of the
smart-checklist application.  The data model and every operation below are
shallow embeddings of `src/services/checklistService.ts` and of the two
command routers (`handleCommand` in the first App component,
`handleSubmitInput`/`handleAddItems` in the second).  Strings are Lean
strings; JavaScript `toLowerCase()`/`trim()` become `String.toLower` /
`String.trim`; `crypto.randomUUID()` becomes an explicit id-supply argument
`genId : Nat → String` consumed in generation order; `Array.findIndex` /
aliased in-place mutation of the found element becomes `findIndex` plus
`updateAt`; fallible lookups return `Option`.
-/

namespace SmartChecklist

/-- Embeds the `ChecklistItem` interface of `src/types.ts`. -/
structure ChecklistItem where
  id : String
  text : String
  completed : Bool
deriving DecidableEq

/-- Embeds the `Category` interface of `src/types.ts`: a named ordered
sequence of items.  A checklist is a `List Category`. -/
structure Category where
  category : String
  items : List ChecklistItem
deriving DecidableEq

/-- Per-character lowercasing, modelling JavaScript
`String.prototype.toLowerCase` (the behaviour of `String.toLower`, stated
by structural recursion over the character sequence). -/
def toLowerStr (s : String) : String := ⟨s.data.map Char.toLower⟩

/-- Removal of leading and trailing whitespace, modelling JavaScript
`String.prototype.trim` by dropping whitespace characters from both ends of
the character sequence. -/
def trimStr (s : String) : String :=
  ⟨(((s.data.dropWhile Char.isWhitespace).reverse.dropWhile Char.isWhitespace).reverse : List Char)⟩

/-- The normalization `s.toLowerCase().trim()` used for duplicate and
category-name matching in `checklistService.ts`. -/
def normStr (s : String) : String := trimStr (toLowerStr s)

/-- JavaScript `Array.prototype.findIndex`: index of the first element
satisfying `p`, `none` when there is none (the source's `-1`). -/
def findIndex (p : α → Bool) : List α → Option Nat
  | [] => none
  | a :: l => if p a then some 0 else (findIndex p l).map (· + 1)

/-- In-place mutation of the element at index `i` (the aliased-object update
pattern of the source); out-of-range indices leave the list unchanged. -/
def updateAt : List α → Nat → (α → α) → List α
  | [], _, _ => []
  | a :: l, 0, f => f a :: l
  | a :: l, n + 1, f => a :: updateAt l n f

/-- Update the first element satisfying `p` with `f`; if none matches,
append `dflt` at the end.  Declarative counterpart of the source's
find-index-then-mutate-else-push pattern. -/
def updateFirst (p : α → Bool) (f : α → α) (dflt : α) : List α → List α
  | [] => [dflt]
  | a :: l => if p a then f a :: l else a :: updateFirst p f dflt l

/-- The items built by the `newItems.forEach` loop of `addItems`: the k-th
text receives the k-th freshly generated id and `completed = false`. -/
def mkNewItems (genId : Nat → String) : Nat → List String → List ChecklistItem
  | _, [] => []
  | k, t :: ts => { id := genId k, text := t, completed := false } :: mkNewItems genId (k + 1) ts

/-- Embeds `addItems` of `checklistService.ts`: no-op on an empty text list;
otherwise append one new item per text to the first category whose name
lower-cases to "uncategorized", creating a category named "Uncategorized"
at the end when none exists.  `genId` stands for `crypto.randomUUID()`. -/
def addItems (categories : List Category) (newItems : List String) (genId : Nat → String) :
    List Category :=
  if newItems.isEmpty then categories
  else
    let mkItems := mkNewItems genId 0 newItems
    match findIndex (fun c => toLowerStr c.category == "uncategorized") categories with
    | some i => updateAt categories i fun c => { c with items := c.items ++ mkItems }
    | none => categories ++ [{ category := "Uncategorized", items := mkItems }]

/-- Embeds `removeItems` of `checklistService.ts`: drop every item whose
lower-cased trimmed text occurs in the lower-cased trimmed phrase list,
then drop categories left without items; empty phrase list is a no-op. -/
def removeItems (categories : List Category) (itemsToRemove : List String) : List Category :=
  if itemsToRemove.isEmpty then categories
  else
    let lowercasedItemsToRemove := itemsToRemove.map normStr
    ((categories.map fun c =>
        { c with items := c.items.filter fun it => !lowercasedItemsToRemove.contains (normStr it.text) }).filter
      fun c => !c.items.isEmpty)

/-- Embeds `toggleItem` of `checklistService.ts`. -/
def toggleItem (categories : List Category) (categoryId itemId : String) : List Category :=
  categories.map fun c =>
    if c.category = categoryId then
      { c with items := c.items.map fun it =>
          if it.id = itemId then { it with completed := !it.completed } else it }
    else c

/-- The per-category update of the source's `moveItem` map: a source-named
category has the item filtered out, a destination-named category gets it
appended, any other category is untouched. -/
def moveMapFn (itemId sourceCategoryId destCategoryId : String) (itemToMove : ChecklistItem)
    (c : Category) : Category :=
  if c.category = sourceCategoryId then
    { c with items := c.items.filter fun it => it.id != itemId }
  else if c.category = destCategoryId then
    { c with items := c.items ++ [itemToMove] }
  else c

/-- Embeds `moveItem` of `checklistService.ts`: no-op when source and
destination coincide or any lookup misses; otherwise filter the item out of
every source-named category, append it to every destination-named category,
and drop categories left empty. -/
def moveItem (categories : List Category) (itemId sourceCategoryId destCategoryId : String) :
    List Category :=
  if sourceCategoryId = destCategoryId then categories
  else
    match categories.find? fun c => c.category == sourceCategoryId with
    | none => categories
    | some sourceCategory =>
      match categories.find? fun c => c.category == destCategoryId with
      | none => categories
      | some _ =>
        match sourceCategory.items.find? fun it => it.id == itemId with
        | none => categories
        | some itemToMove =>
          ((categories.map (moveMapFn itemId sourceCategoryId destCategoryId itemToMove)).filter
            fun c => !c.items.isEmpty)

/-- Embeds `deleteItem` of `checklistService.ts`. -/
def deleteItem (categories : List Category) (categoryId itemId : String) : List Category :=
  ((categories.map fun c =>
      if c.category = categoryId then
        { c with items := c.items.filter fun it => it.id != itemId }
      else c).filter fun c => !c.items.isEmpty)

/-- Embeds `deleteCategory` of `checklistService.ts`. -/
def deleteCategory (categories : List Category) (categoryId : String) : List Category :=
  categories.filter fun c => c.category != categoryId

/-- Embeds `editItem` of `checklistService.ts`. -/
def editItem (categories : List Category) (categoryId itemId newText : String) : List Category :=
  categories.map fun c =>
    if c.category = categoryId then
      { c with items := c.items.map fun it =>
          if it.id = itemId then { it with text := newText } else it }
    else c

/-- One iteration of the `newCategories.forEach` loop of `mergeCategories`:
find the first accumulated category with the same normalized name; if found,
push each incoming item whose normalized text is absent from the suppression
set computed up front from the matched category's items; otherwise push the
incoming category at the end. -/
def mergeStep (acc : List Category) (newCategory : Category) : List Category :=
  match findIndex (fun c => normStr c.category == normStr newCategory.category) acc with
  | some i =>
    updateAt acc i fun existingCategory =>
      let existingItemTexts := existingCategory.items.map fun it => normStr it.text
      { existingCategory with
        items := newCategory.items.foldl
          (fun its newItem =>
            if existingItemTexts.contains (normStr newItem.text) then its else its ++ [newItem])
          existingCategory.items }
  | none => acc ++ [newCategory]

/-- Embeds `mergeCategories` of `checklistService.ts`. -/
def mergeCategories (existingCategories newCategories : List Category) : List Category :=
  if existingCategories.isEmpty then newCategories
  else newCategories.foldl mergeStep existingCategories

/-- All items of a checklist, in display order. -/
def allItems (cats : List Category) : List ChecklistItem := (cats.map fun c => c.items).flatten

/-- All item ids of a checklist, in display order. -/
def allIds (cats : List Category) : List String := (allItems cats).map fun it => it.id

/-- The total item count: sum of the lengths of all categories' item
sequences. -/
def totalCount (cats : List Category) : Nat := (cats.map fun c => c.items.length).sum

/-- The spec's category non-emptiness invariant. -/
def allNonempty (cats : List Category) : Prop := ∀ c ∈ cats, c.items ≠ []

/-- The spec's store-wide item-id uniqueness invariant. -/
def idsUnique (cats : List Category) : Prop := (allIds cats).Nodup

/-- The data model's category-name uniqueness invariant (§3 of the spec:
the name is "a unique key within the store"). -/
def namesUnique (cats : List Category) : Prop := (cats.map fun c => c.category).Nodup

instance : DecidablePred allNonempty := fun cats => List.decidableBAll _ cats

instance : DecidablePred idsUnique := fun _ => List.nodupDecidable _

instance : DecidablePred namesUnique := fun _ => List.nodupDecidable _

/-! Claim-level specification functions.  Unlike the embeddings above, which
are translated from the source, each definition in this block transcribes the
words of a spec sentence or claim, to be compared with the source embedding. -/

/-- Transcribes the claim's removal rule: an item matches when its
lower-cased trimmed text exactly equals some phrase, lower-cased and
trimmed. -/
def matchesAnyPhrase (phrases : List String) (it : ChecklistItem) : Bool :=
  phrases.any fun p => normStr it.text == normStr p

/-- Transcribes claim C5's description of `removeItems`: remove exactly the
matching items, keep the rest in order, drop emptied categories, and return
the checklist unchanged for an empty phrase sequence. -/
def removeItemsSpec (cats : List Category) (phrases : List String) : List Category :=
  if phrases = [] then cats
  else
    ((cats.map fun c => { c with items := c.items.filter fun it => !matchesAnyPhrase phrases it }).filter
      fun c => !c.items.isEmpty)

/-- Transcribes claim C7's description of `addItems`: one new not-completed
item per text in input order, appended to the category whose name
case-insensitively equals "uncategorized", with a category named
"Uncategorized" created at the end when none exists, and no change for an
empty text sequence. -/
def addItemsSpec (cats : List Category) (newItems : List String) (genId : Nat → String) :
    List Category :=
  if newItems = [] then cats
  else
    updateFirst (fun c => toLowerStr c.category == "uncategorized")
      (fun c => { c with items := c.items ++ mkNewItems genId 0 newItems })
      { category := "Uncategorized", items := mkNewItems genId 0 newItems }
      cats

/-- Appending an incoming item under claim C1's literal duplicate rule: the
item is kept out when its normalized text is already among the normalized
texts of the items currently in the category (the suppression set follows
the growing item sequence). -/
def insertSuppress (items : List ChecklistItem) (newItem : ChecklistItem) : List ChecklistItem :=
  if (items.map fun it => normStr it.text).contains (normStr newItem.text) then items
  else items ++ [newItem]

/-- Merging one incoming category into the first category of the list whose
normalized name matches, under claim C1's literal per-item duplicate rule. -/
def specMergeInto : List Category → Category → List Category
  | [], nc => [nc]
  | c :: rest, nc =>
    if normStr c.category == normStr nc.category then
      { c with items := nc.items.foldl insertSuppress c.items } :: rest
    else c :: specMergeInto rest nc

/-- Transcribes claim C1 literally: an incoming category is merged exactly
when its normalized name matches some category of `existing` (the original
first argument); otherwise it is appended at the end; a merged item is
appended exactly when its normalized text is not among the normalized texts
of the items already in the matched category. -/
def mergeSpecC1 (existing incoming : List Category) : List Category :=
  incoming.foldl
    (fun acc nc =>
      if existing.any fun c => normStr c.category == normStr nc.category then
        specMergeInto acc nc
      else acc ++ [nc])
    existing

/-- The matched-category update of `mergeCategories`, stated declaratively:
the matched category keeps its name and its items are extended by exactly
those incoming items whose normalized text is absent from the suppression
set computed once from the matched category's items. -/
def mergeMatched (c nc : Category) : Category :=
  { c with
    items := c.items ++ nc.items.filter fun ni =>
      !((c.items.map fun it => normStr it.text).contains (normStr ni.text)) }

/-- One merge step stated declaratively: the incoming category is merged
into the first category of the accumulated list whose normalized name
matches, and appended at the end when none does. -/
def mergeIntoSpec (acc : List Category) (nc : Category) : List Category :=
  updateFirst (fun c => normStr c.category == normStr nc.category)
    (fun c => mergeMatched c nc) nc acc

/-- The amended description of `mergeCategories`: a left fold of
`mergeIntoSpec` over the incoming categories, starting from the existing
checklist (returned verbatim as `incoming` when `existing` is empty). -/
def mergeCategoriesSpec (existing incoming : List Category) : List Category :=
  if existing.isEmpty then incoming
  else incoming.foldl mergeIntoSpec existing

/-! The mutation-operation alphabets quantified over by the invariant
claims, and the command routers. -/

/-- The operations quantified over by claim C2 (add, remove-by-text, move,
delete item, delete category).  `genId` carries the id supply of the
source's `crypto.randomUUID()` calls. -/
inductive Op where
  | add (newItems : List String) (genId : Nat → String)
  | remove (itemsToRemove : List String)
  | move (itemId sourceCategoryId destCategoryId : String)
  | deleteItem (categoryId itemId : String)
  | deleteCategory (categoryId : String)

/-- Application of one claim-C2 operation. -/
def applyOp (cats : List Category) : Op → List Category
  | .add newItems genId => addItems cats newItems genId
  | .remove itemsToRemove => removeItems cats itemsToRemove
  | .move itemId src dst => moveItem cats itemId src dst
  | .deleteItem categoryId itemId => deleteItem cats categoryId itemId
  | .deleteCategory categoryId => deleteCategory cats categoryId

/-- Application of a finite sequence of claim-C2 operations, in order. -/
def applyOps (cats : List Category) (ops : List Op) : List Category :=
  ops.foldl applyOp cats

/-- The full mutation alphabet quantified over by claim C3. -/
inductive MOp where
  | add (newItems : List String) (genId : Nat → String)
  | remove (itemsToRemove : List String)
  | toggle (categoryId itemId : String)
  | move (itemId sourceCategoryId destCategoryId : String)
  | edit (categoryId itemId newText : String)
  | deleteItem (categoryId itemId : String)
  | deleteCategory (categoryId : String)
  | merge (incoming : List Category)

/-- Application of one claim-C3 mutation. -/
def applyMOp (cats : List Category) : MOp → List Category
  | .add newItems genId => addItems cats newItems genId
  | .remove itemsToRemove => removeItems cats itemsToRemove
  | .toggle categoryId itemId => toggleItem cats categoryId itemId
  | .move itemId src dst => moveItem cats itemId src dst
  | .edit categoryId itemId newText => editItem cats categoryId itemId newText
  | .deleteItem categoryId itemId => deleteItem cats categoryId itemId
  | .deleteCategory categoryId => deleteCategory cats categoryId
  | .merge incoming => mergeCategories cats incoming

/-- Well-formedness of a mutation's arguments, as assumed by the source:
`crypto.randomUUID()` never repeats an id (injective supply, fresh with
respect to the store), and a generated incoming checklist carries fresh
unique ids.  The purely structural mutations need nothing. -/
def MOpWellFormed (cats : List Category) : MOp → Prop
  | .add _ genId => Function.Injective genId ∧ ∀ i, genId i ∉ allIds cats
  | .merge incoming => idsUnique incoming ∧ ∀ s ∈ allIds incoming, s ∉ allIds cats
  | _ => True

/-- The intent alphabet of the command protocol (`commandService.ts`). -/
inductive Intent where
  | ADD | REMOVE | CLEAR | UNKNOWN
deriving DecidableEq

/-- Embeds the `Command` interface of `commandService.ts`. -/
structure Command where
  intent : Intent
  items : List String
deriving DecidableEq

/-- The user-facing signals surfaced by the routers (the `setError`
messages), abstracted to their kind. -/
inductive UserSignal where
  | couldNotUnderstand
  | couldNotExtract
  | beMoreSpecific
deriving DecidableEq

/-- The observable outcome of routing one command: the resulting checklist,
an optional user-facing error signal, and whether a confirmation dialog was
requested (mutations behind a dialog are deferred, not applied). -/
structure RouteResult where
  categories : List Category
  errorSignal : Option UserSignal
  confirmRequest : Bool
deriving DecidableEq

/-- Embeds `handleCommand` of the first App component: ADD delegates to
`addItems`, REMOVE to `removeItems`, CLEAR requests the delete-all
confirmation dialog, and anything else surfaces the could-not-understand
error without touching the checklist. -/
def handleCommand (cats : List Category) (cmd : Command) (genId : Nat → String) : RouteResult :=
  match cmd.intent with
  | .ADD => { categories := addItems cats cmd.items genId, errorSignal := none, confirmRequest := false }
  | .REMOVE => { categories := removeItems cats cmd.items, errorSignal := none, confirmRequest := false }
  | .CLEAR => { categories := cats, errorSignal := none, confirmRequest := true }
  | .UNKNOWN => { categories := cats, errorSignal := some .couldNotUnderstand, confirmRequest := false }

/-- JavaScript `Map` construction keyed by exact category name: on duplicate
names the later entry wins, so lookups resolve to the last occurrence. -/
def lastFindIndex (p : α → Bool) : List α → Option Nat
  | [] => none
  | a :: l =>
    match lastFindIndex p l with
    | some i => some (i + 1)
    | none => if p a then some 0 else none

/-- One iteration of the reconciliation loop inside `handleAddItems` of the
second App component: exact (case-sensitive, untrimmed) category-name
matching through the name-keyed `Map`, duplicate suppression by lower-cased
(untrimmed) item text. -/
def handleAddItemsStep (acc : List Category) (nc : Category) : List Category :=
  match lastFindIndex (fun c => c.category == nc.category) acc with
  | some i =>
    updateAt acc i fun existingCategory =>
      let existingItemTexts := existingCategory.items.map fun it => toLowerStr it.text
      { existingCategory with
        items := nc.items.foldl
          (fun its newItem =>
            if existingItemTexts.contains (toLowerStr newItem.text) then its else its ++ [newItem])
          existingCategory.items }
  | none => acc ++ [nc]

/-- Embeds `handleAddItems` of the second App component.  The checklist
generated by the external LLM collaborator is passed in as `generated`; an
empty generation surfaces the could-not-extract signal and leaves the
checklist unchanged. -/
def handleAddItems (cats generated : List Category) : RouteResult :=
  if generated.isEmpty then
    { categories := cats, errorSignal := some .couldNotExtract, confirmRequest := false }
  else
    { categories := generated.foldl handleAddItemsStep cats, errorSignal := none,
      confirmRequest := false }

/-- Embeds the command-dispatch switch of `handleSubmitInput` in the second
App component (non-URL branch): ADD/REMOVE with no items surface the
be-more-specific signal; REMOVE and CLEAR request confirmation dialogs; the
UNKNOWN/default arm falls back to treating the whole input as items to add,
delegating to `handleAddItems`. -/
def handleSubmitCommand (cats : List Category) (cmd : Command) (generated : List Category) :
    RouteResult :=
  match cmd.intent with
  | .ADD =>
    if cmd.items.isEmpty then
      { categories := cats, errorSignal := some .beMoreSpecific, confirmRequest := false }
    else handleAddItems cats generated
  | .REMOVE =>
    if cmd.items.isEmpty then
      { categories := cats, errorSignal := some .beMoreSpecific, confirmRequest := false }
    else { categories := cats, errorSignal := none, confirmRequest := true }
  | .CLEAR => { categories := cats, errorSignal := none, confirmRequest := true }
  | .UNKNOWN => handleAddItems cats generated

/-! Helper lemmas shared by the claim theorems. -/

/-- The source's find-index-then-mutate-else-push pattern coincides with the
structural first-match update. -/
theorem findIndex_updateAt_eq (p : α → Bool) (f : α → α) (dflt : α) :
    ∀ l : List α,
      (match findIndex p l with
        | some i => updateAt l i f
        | none => l ++ [dflt]) = updateFirst p f dflt l := by
  intro l
  induction l with
  | nil => rfl
  | cons a l ih =>
    by_cases hpa : p a = true
    · simp [findIndex, updateFirst, hpa, updateAt]
    · simp only [findIndex, updateFirst, hpa, Bool.false_eq_true, if_false, if_neg]
      cases h : findIndex p l with
      | none => simp [h] at ih; simp [ih]
      | some i => simp [h] at ih; simp [updateAt, ih]

/-- A push loop guarded by a fixed membership test is an append of a
filter. -/
theorem foldl_push_filter (q : α → Bool) :
    ∀ (l init : List α),
      l.foldl (fun its ni => if q ni then its else its ++ [ni]) init =
        init ++ l.filter fun ni => !q ni := by
  intro l
  induction l with
  | nil => simp
  | cons a l ih =>
    intro init
    by_cases hq : q a = true <;>
      simp [List.foldl_cons, hq, ih, List.filter_cons]

/-- Membership of `x` in a mapped list, as the source's `Set.has` over
mapped texts, is an `any` over the original list. -/
theorem contains_map_beq (f : α → String) (ps : List α) (x : String) :
    (ps.map f).contains x = ps.any fun p => x == f p := by
  induction ps with
  | nil => rfl
  | cons a ps ih => simp only [List.map_cons, List.contains_cons, List.any_cons, ih]

/-- The imperative merge step of the source equals its declarative
first-match description. -/
theorem mergeStep_eq_spec (acc : List Category) (nc : Category) :
    mergeStep acc nc = mergeIntoSpec acc nc := by
  unfold mergeStep mergeIntoSpec
  have hf :
      (fun existingCategory =>
        let existingItemTexts := existingCategory.items.map fun it => normStr it.text
        { existingCategory with
          items := nc.items.foldl
            (fun its newItem =>
              if existingItemTexts.contains (normStr newItem.text) then its else its ++ [newItem])
            existingCategory.items }) = fun c => mergeMatched c nc := by
    funext c
    show ({ c with
        items := nc.items.foldl
          (fun its newItem =>
            if (c.items.map fun it => normStr it.text).contains (normStr newItem.text) then its
            else its ++ [newItem])
          c.items } : Category) = mergeMatched c nc
    rw [mergeMatched, foldl_push_filter (fun newItem : ChecklistItem =>
      (c.items.map fun it => normStr it.text).contains (normStr newItem.text))]
  rw [hf]
  exact findIndex_updateAt_eq _ _ _ acc

/-! Claim theorems. -/

/-- Pointwise-equal item filters produce equal filter-then-drop-empties
results. -/
theorem filter_map_items_congr (q r : ChecklistItem → Bool) (h : ∀ it, q it = r it)
    (cats : List Category) :
    ((cats.map fun c => { c with items := c.items.filter q }).filter fun c => !c.items.isEmpty) =
      ((cats.map fun c => { c with items := c.items.filter r }).filter
        fun c => !c.items.isEmpty) := by
  have hq : q = r := funext h
  rw [hq]

/-- C5: `removeItems` removes exactly the items whose text, lower-cased and
trimmed, equals some phrase lower-cased and trimmed; all other items keep
their original relative order, categories left with zero items are dropped,
and an empty phrase sequence returns the checklist unchanged. -/
theorem C5_removeItems_spec (cats : List Category) (phrases : List String) :
    removeItems cats phrases = removeItemsSpec cats phrases := by
  cases phrases with
  | nil => rfl
  | cons p ps =>
    exact filter_map_items_congr
      (fun it => !((p :: ps).map normStr).contains (normStr it.text))
      (fun it => !matchesAnyPhrase (p :: ps) it)
      (fun it => by
        simp only [matchesAnyPhrase]
        rw [Bool.eq_iff_iff]
        simp
        intro _
        constructor <;> exact fun h a ha hh => h a ha hh.symm)
      cats

/-- C7: `addItems` appends one new not-completed item per text in input
order to the first category whose name case-insensitively equals
"uncategorized", creating a category named "Uncategorized" at the end when
none exists, applies no duplicate suppression, and returns the checklist
unchanged for an empty text sequence. -/
theorem C7_addItems_spec (cats : List Category) (newItems : List String) (genId : Nat → String) :
    addItems cats newItems genId = addItemsSpec cats newItems genId := by
  cases newItems with
  | nil => rfl
  | cons t ts =>
    exact findIndex_updateAt_eq (fun c => toLowerStr c.category == "uncategorized")
      (fun c => { c with items := c.items ++ mkNewItems genId 0 (t :: ts) })
      { category := "Uncategorized", items := mkNewItems genId 0 (t :: ts) } cats

/-- Mapping a function that fixes every member of a list leaves the list
unchanged. -/
theorem list_map_self (l : List α) (f : α → α) (h : ∀ a ∈ l, f a = a) : l.map f = l := by
  induction l with
  | nil => rfl
  | cons a l ih => simp [h a (by simp), ih fun b hb => h b (by simp [hb])]

/-- Folding a step that fixes the accumulator on every element of the list
returns the accumulator. -/
theorem foldl_fixed (f : β → α → β) (b : β) :
    ∀ l : List α, (∀ a ∈ l, f b a = b) → l.foldl f b = b := by
  intro l
  induction l with
  | nil => intro _; rfl
  | cons a l ih =>
    intro h
    rw [List.foldl_cons, h a (by simp)]
    exact ih fun x hx => h x (by simp [hx])

/-- Every member of an `updateFirst` result is a member of the original
list, the image under the update of a member, or the appended default. -/
theorem updateFirst_forall {P : α → Prop} (p : α → Bool) (f : α → α) (dflt : α) :
    ∀ l : List α, (∀ a ∈ l, P a) → (∀ a ∈ l, P (f a)) → P dflt →
      ∀ a ∈ updateFirst p f dflt l, P a := by
  intro l
  induction l with
  | nil =>
    intro _ _ hd a ha
    simp only [updateFirst, List.mem_singleton] at ha
    exact ha ▸ hd
  | cons b l ih =>
    intro hl hf hd a ha
    rw [updateFirst] at ha
    by_cases hp : p b = true
    · rw [if_pos hp] at ha
      rcases List.mem_cons.mp ha with h | h
      · exact h ▸ hf b (by simp)
      · exact hl a (by simp [h])
    · rw [if_neg hp] at ha
      rcases List.mem_cons.mp ha with h | h
      · exact h ▸ hl b (by simp)
      · exact ih (fun x hx => hl x (by simp [hx])) (fun x hx => hf x (by simp [hx])) hd a h

/-- Every member of an `updateAt` result is a member of the original list
or the image under the update of a member. -/
theorem updateAt_forall {P : α → Prop} :
    ∀ (l : List α) (i : Nat) {f : α → α},
      (∀ a ∈ l, P a) → (∀ a ∈ l, P (f a)) → ∀ a ∈ updateAt l i f, P a := by
  intro l
  induction l with
  | nil => intro i f _ _ a ha; simp [updateAt] at ha
  | cons b l ih =>
    intro i f hl hf a ha
    cases i with
    | zero =>
      rw [updateAt] at ha
      rcases List.mem_cons.mp ha with h | h
      · exact h ▸ hf b (by simp)
      · exact hl a (by simp [h])
    | succ n =>
      rw [updateAt] at ha
      rcases List.mem_cons.mp ha with h | h
      · exact h ▸ hl b (by simp)
      · exact ih n (fun x hx => hl x (by simp [hx])) (fun x hx => hf x (by simp [hx])) a h

/-- Every category surviving the drop-empties filter has items. -/
theorem filter_nonempty_forall (l : List Category) :
    ∀ c ∈ l.filter fun c => !c.items.isEmpty, c.items ≠ [] := by
  intro c hc
  have h := List.of_mem_filter hc
  simp only [Bool.not_eq_true'] at h
  intro hnil
  rw [hnil] at h
  simp at h

/-- One merge step preserves non-emptiness of every category, provided the
incoming category itself has items. -/
theorem mergeStep_nonempty (acc : List Category) (nc : Category)
    (hacc : ∀ c ∈ acc, c.items ≠ []) (hnc : nc.items ≠ []) :
    ∀ c ∈ mergeStep acc nc, c.items ≠ [] := by
  rw [mergeStep_eq_spec, mergeIntoSpec]
  refine updateFirst_forall _ _ _ acc hacc ?_ hnc
  intro c hc
  have h := hacc c hc
  show c.items ++ (nc.items.filter fun ni =>
      !((c.items.map fun it => normStr it.text).contains (normStr ni.text))) ≠ []
  intro hx
  exact h (List.append_eq_nil.mp hx).1

/-- C1 fails as stated: with existing category `A : [x]` and a single
incoming category `A : [y, y]` holding two items of equal text, the code
appends both copies, while the claim's rule — append an incoming item only
when its normalized text is not among the normalized texts of the items
already in the matched category — admits only the first. -/
theorem C1_counterexample :
    [Category.mk "A" [⟨"1", "x", false⟩]] ≠ ([] : List Category) ∧
    mergeCategories [Category.mk "A" [⟨"1", "x", false⟩]]
        [Category.mk "A" [⟨"2", "y", false⟩, ⟨"3", "y", false⟩]] ≠
      mergeSpecC1 [Category.mk "A" [⟨"1", "x", false⟩]]
        [Category.mk "A" [⟨"2", "y", false⟩, ⟨"3", "y", false⟩]] := by decide

/-- C1 amended: for non-empty `existing`, `mergeCategories` folds the
incoming categories into the accumulated list — an incoming category is
merged into the first accumulated category (so possibly one appended
earlier in the same merge) whose normalized name matches, keeping that
category's name; its items are extended by exactly those incoming items
whose normalized text is absent from the suppression set computed once, at
that point, from the matched category's items (so equal-text duplicates
within one incoming category are all appended); incoming categories with no
match are appended at the end with all their items. -/
theorem C1_merge_follows_code (existing incoming : List Category) (_hne : existing ≠ []) :
    mergeCategories existing incoming = mergeCategoriesSpec existing incoming := by
  have hstep : mergeStep = mergeIntoSpec :=
    funext fun a => funext fun b => mergeStep_eq_spec a b
  rw [mergeCategories, mergeCategoriesSpec, hstep]

/-- Witness for the amended C1 at the spec's scenario-4 input. -/
theorem C1_merge_follows_code_witness :
    mergeCategories [Category.mk "Produce" [⟨"1", "apple", false⟩]]
        [Category.mk "produce" [⟨"2", "apple", false⟩, ⟨"3", "banana", false⟩]] =
      mergeCategoriesSpec [Category.mk "Produce" [⟨"1", "apple", false⟩]]
        [Category.mk "produce" [⟨"2", "apple", false⟩, ⟨"3", "banana", false⟩]] :=
  C1_merge_follows_code _ _ (by decide)

/-- C10: when every category of `existing` and every category of `incoming`
has at least one item, every category of
`mergeCategories existing incoming` has at least one item — merge performs
no empty-category filtering of its own, so the guarantee needs the
precondition on `incoming`. -/
theorem C10_merge_nonempty (existing incoming : List Category)
    (hex : allNonempty existing) (hinc : allNonempty incoming) :
    allNonempty (mergeCategories existing incoming) := by
  rw [mergeCategories]
  by_cases he : existing.isEmpty = true
  · rw [if_pos he]; exact hinc
  · rw [if_neg he]
    have main : ∀ (inc acc : List Category), allNonempty acc → allNonempty inc →
        allNonempty (inc.foldl mergeStep acc) := by
      intro inc
      induction inc with
      | nil => exact fun acc ha _ => ha
      | cons nc rest ih =>
        intro acc ha hi
        rw [List.foldl_cons]
        exact ih (mergeStep acc nc) (mergeStep_nonempty acc nc ha (hi nc (by simp)))
          fun c hc => hi c (by simp [hc])
    exact main incoming existing hex hinc

/-- Witness for C10 at a concrete matched-and-unmatched merge. -/
theorem C10_merge_nonempty_witness :
    allNonempty (mergeCategories
      [Category.mk "Produce" [⟨"1", "apple", false⟩]]
      [Category.mk "produce" [⟨"2", "banana", false⟩], Category.mk "Dairy" [⟨"3", "milk", false⟩]]) :=
  C10_merge_nonempty _ _ (by decide) (by decide)

/-- The structural-edit operations preserve category non-emptiness. -/
theorem applyOp_nonempty (cats : List Category) (op : Op) (h : allNonempty cats) :
    allNonempty (applyOp cats op) := by
  cases op with
  | add newItems genId =>
    show allNonempty (addItems cats newItems genId)
    cases newItems with
    | nil => exact h
    | cons t ts =>
      rw [addItems]
      simp only [List.isEmpty_cons, Bool.false_eq_true, if_false]
      cases hf : findIndex (fun c => toLowerStr c.category == "uncategorized") cats with
      | some i =>
        refine updateAt_forall _ i h ?_
        intro c _
        show c.items ++ mkNewItems genId 0 (t :: ts) ≠ []
        simp [mkNewItems]
      | none =>
        intro c hc
        rcases List.mem_append.mp hc with hc | hc
        · exact h c hc
        · rw [List.mem_singleton.mp hc]
          simp [mkNewItems]
  | remove itemsToRemove =>
    show allNonempty (removeItems cats itemsToRemove)
    cases itemsToRemove with
    | nil => exact h
    | cons p ps => exact filter_nonempty_forall _
  | move itemId src dst =>
    show allNonempty (moveItem cats itemId src dst)
    rw [moveItem]
    split
    · exact h
    · split
      · exact h
      · split
        · exact h
        · split
          · exact h
          · exact filter_nonempty_forall _
  | deleteItem categoryId itemId =>
    exact filter_nonempty_forall _
  | deleteCategory categoryId =>
    exact fun c hc => h c (List.mem_of_mem_filter hc)

/-- Merging a category of the list into the list itself is the identity
when the normalized category names are pairwise distinct: the category
matches itself first, and every one of its items is suppressed by its own
text. -/
theorem mergeIntoSpec_self (l : List Category) (c : Category) (hmem : c ∈ l)
    (hnd : (l.map fun d => normStr d.category).Nodup) : mergeIntoSpec l c = l := by
  induction l with
  | nil => cases hmem
  | cons d rest ih =>
    rw [mergeIntoSpec, updateFirst]
    by_cases hp : (normStr d.category == normStr c.category) = true
    · rw [if_pos hp]
      have hdc : d = c := by
        rcases List.mem_cons.mp hmem with h | h
        · exact h.symm
        · exfalso
          have h1 : normStr d.category = normStr c.category := eq_of_beq hp
          have h2 : normStr c.category ∈ rest.map fun d => normStr d.category :=
            List.mem_map_of_mem _ h
          rw [List.map_cons, List.nodup_cons] at hnd
          exact hnd.1 (h1 ▸ h2)
      subst hdc
      have hid : mergeMatched d d = d := by
        rw [mergeMatched]
        have hfil : (d.items.filter fun ni =>
            !((d.items.map fun it => normStr it.text).contains (normStr ni.text))) = [] := by
          rw [List.filter_eq_nil_iff]
          intro it hit
          have : normStr it.text ∈ d.items.map fun it => normStr it.text :=
            List.mem_map_of_mem _ hit
          simp [this]
        rw [hfil]
        simp
      show mergeMatched d d :: rest = d :: rest
      rw [hid]
    · rw [if_neg hp]
      have hcr : c ∈ rest := by
        rcases List.mem_cons.mp hmem with h | h
        · exfalso; rw [h] at hp; exact hp (beq_self_eq_true _)
        · exact h
      rw [List.map_cons, List.nodup_cons] at hnd
      show d :: updateFirst _ _ _ rest = d :: rest
      exact congrArg (d :: ·) (ih hcr hnd.2)

/-- C4 fails as stated: with `X = [A : [apple], a : [banana]]`, whose two
category names coincide after normalization, self-merge routes the second
category's item into the first (the first normalized-name match) while also
keeping the second category, growing the total item count from 2 to 3. -/
theorem C4_counterexample :
    totalCount (mergeCategories
        [Category.mk "A" [⟨"1", "apple", false⟩], Category.mk "a" [⟨"2", "banana", false⟩]]
        [Category.mk "A" [⟨"1", "apple", false⟩], Category.mk "a" [⟨"2", "banana", false⟩]]) ≠
      totalCount
        [Category.mk "A" [⟨"1", "apple", false⟩], Category.mk "a" [⟨"2", "banana", false⟩]] := by
  decide

/-- C4 amended: when the categories of `X` have pairwise distinct
normalized (lower-cased, trimmed) names, `mergeCategories X X` has the same
total item count as `X` (every incoming category matches itself and every
incoming item is suppressed). -/
theorem C4_merge_self_count (X : List Category)
    (hnd : (X.map fun c => normStr c.category).Nodup) :
    totalCount (mergeCategories X X) = totalCount X := by
  rw [mergeCategories]
  by_cases he : X.isEmpty = true
  · rw [if_pos he]
  · rw [if_neg he]
    have hfold : X.foldl mergeStep X = X :=
      foldl_fixed _ _ X fun c hc => by
        rw [mergeStep_eq_spec]; exact mergeIntoSpec_self X c hc hnd
    rw [hfold]

/-- Witness for the amended C4. -/
theorem C4_merge_self_count_witness :
    totalCount (mergeCategories
        [Category.mk "Produce" [⟨"1", "apple", false⟩], Category.mk "Dairy" [⟨"2", "milk", false⟩]]
        [Category.mk "Produce" [⟨"1", "apple", false⟩], Category.mk "Dairy" [⟨"2", "milk", false⟩]]) =
      totalCount
        [Category.mk "Produce" [⟨"1", "apple", false⟩],
          Category.mk "Dairy" [⟨"2", "milk", false⟩]] :=
  C4_merge_self_count _ (by decide)

/-- C2: from a valid starting checklist (all categories non-empty, ids
unique), any finite sequence of add/remove/move/delete-item/delete-category
operations yields a checklist in which every category is non-empty. -/
theorem C2_nonempty_invariant (cats : List Category) (ops : List Op)
    (hne : allNonempty cats) (_hid : idsUnique cats) :
    allNonempty (applyOps cats ops) := by
  have main : ∀ (ops : List Op) (cs : List Category),
      allNonempty cs → allNonempty (applyOps cs ops) := by
    intro ops
    induction ops with
    | nil => exact fun cs hcs => hcs
    | cons op ops ih => exact fun cs hcs => ih (applyOp cs op) (applyOp_nonempty cs op hcs)
  exact main ops cats hne

/-- Witness for C2 at a concrete starting state and operation sequence. -/
theorem C2_nonempty_invariant_witness :
    allNonempty (applyOps
      [Category.mk "Produce" [⟨"1", "apple", false⟩], Category.mk "Dairy" [⟨"2", "milk", false⟩]]
      [Op.add ["bread"] (fun n => toString n), Op.remove ["milk"],
        Op.move "1" "Produce" "Uncategorized", Op.deleteItem "Uncategorized" "0",
        Op.deleteCategory "Dairy"]) :=
  C2_nonempty_invariant _ _ (by decide) (by decide)

/-- A lookup miss makes `toggleItem` the identity. -/
theorem toggleItem_miss (cats : List Category) (categoryId itemId : String)
    (hmiss : ∀ c ∈ cats, c.category = categoryId → ∀ it ∈ c.items, it.id ≠ itemId) :
    toggleItem cats categoryId itemId = cats := by
  rw [toggleItem]
  apply list_map_self
  intro c hc
  by_cases hcat : c.category = categoryId
  · rw [if_pos hcat]
    have hin : (c.items.map fun it =>
        if it.id = itemId then { it with completed := !it.completed } else it) = c.items :=
      list_map_self _ _ fun it hit => if_neg (hmiss c hc hcat it hit)
    rw [hin]
  · exact if_neg hcat

/-- A lookup miss makes `editItem` the identity. -/
theorem editItem_miss (cats : List Category) (categoryId itemId newText : String)
    (hmiss : ∀ c ∈ cats, c.category = categoryId → ∀ it ∈ c.items, it.id ≠ itemId) :
    editItem cats categoryId itemId newText = cats := by
  rw [editItem]
  apply list_map_self
  intro c hc
  by_cases hcat : c.category = categoryId
  · rw [if_pos hcat]
    have hin : (c.items.map fun it =>
        if it.id = itemId then { it with text := newText } else it) = c.items :=
      list_map_self _ _ fun it hit => if_neg (hmiss c hc hcat it hit)
    rw [hin]
  · exact if_neg hcat

/-- A lookup miss makes `deleteItem` the identity, provided no category is
already empty (the trailing drop-empties filter runs unconditionally). -/
theorem deleteItem_miss (cats : List Category) (categoryId itemId : String)
    (hne : allNonempty cats)
    (hmiss : ∀ c ∈ cats, c.category = categoryId → ∀ it ∈ c.items, it.id ≠ itemId) :
    deleteItem cats categoryId itemId = cats := by
  rw [deleteItem]
  have hmap : (cats.map fun c =>
      if c.category = categoryId then
        { c with items := c.items.filter fun it => it.id != itemId }
      else c) = cats := by
    apply list_map_self
    intro c hc
    by_cases hcat : c.category = categoryId
    · rw [if_pos hcat]
      have hfil : (c.items.filter fun it => it.id != itemId) = c.items := by
        rw [List.filter_eq_self]
        intro it hit
        exact bne_iff_ne.mpr (hmiss c hc hcat it hit)
      rw [hfil]
    · exact if_neg hcat
  rw [hmap, List.filter_eq_self]
  intro c hc
  simp only [Bool.not_eq_true', ← Bool.not_eq_true]
  intro hemp
  exact hne c hc (List.isEmpty_iff.mp hemp)

/-- Any lookup miss of `moveItem` — source name absent, destination name
absent, or addressed item absent from every source-named category — makes
it the identity (it returns its input outright before the drop-empties
filter can run). -/
theorem moveItem_miss (cats : List Category) (itemId src dst : String)
    (hmiss : (¬ ∃ c ∈ cats, c.category = src) ∨ (¬ ∃ c ∈ cats, c.category = dst) ∨
      ∀ c ∈ cats, c.category = src → ∀ it ∈ c.items, it.id ≠ itemId) :
    moveItem cats itemId src dst = cats := by
  rw [moveItem]
  by_cases hsd : src = dst
  · rw [if_pos hsd]
  · rw [if_neg hsd]
    rcases hmiss with hs | hd | hitem
    · have hfs : cats.find? (fun c => c.category == src) = none := by
        rw [List.find?_eq_none]
        intro c hc hbeq
        exact hs ⟨c, hc, eq_of_beq hbeq⟩
      rw [hfs]
    · have hfd : cats.find? (fun c => c.category == dst) = none := by
        rw [List.find?_eq_none]
        intro c hc hbeq
        exact hd ⟨c, hc, eq_of_beq hbeq⟩
      cases hfs : cats.find? (fun c => c.category == src) with
      | none => rfl
      | some srcCat => dsimp only; rw [hfd]
    · cases hfs : cats.find? (fun c => c.category == src) with
      | none => rfl
      | some srcCat =>
        have hmem : srcCat ∈ cats := List.mem_of_find?_eq_some hfs
        have hname : srcCat.category = src := by
          have h := List.find?_some hfs
          simpa using h
        have hitem' : srcCat.items.find? (fun it => it.id == itemId) = none := by
          rw [List.find?_eq_none]
          intro it hit hbeq
          exact hitem srcCat hmem hname it hit (eq_of_beq hbeq)
        cases hfd : cats.find? (fun c => c.category == dst) with
        | none => rfl
        | some dstCat => dsimp only; rw [hitem']

/-- C9 fails as stated: on a checklist already containing an empty category
`A`, a `deleteItem` addressed at the absent category `B` is a lookup miss,
yet the operation's unconditional drop-empties filter deletes `A`, so the
result differs from the input. -/
theorem C9_counterexample :
    (∀ c ∈ [Category.mk "A" []], c.category ≠ "B") ∧
    deleteItem [Category.mk "A" []] "B" "x" ≠ [Category.mk "A" []] := by decide

/-- C9 amended: on a checklist satisfying the store's non-emptiness
invariant, a lookup miss makes each of the four operations return a
checklist equal to its input (all four are total functions, so no error can
be raised).  For `toggleItem`, `editItem` and `deleteItem` the miss is that
no category named `categoryId` contains an item with id `itemId`; for
`moveItem` it is any of its three misses — source name absent, destination
name absent, or the addressed item absent from every source-named
category. -/
theorem C9_lookup_miss_noop (cats : List Category)
    (categoryId itemId newText srcId dstId : String)
    (hne : allNonempty cats)
    (hmiss : ∀ c ∈ cats, c.category = categoryId → ∀ it ∈ c.items, it.id ≠ itemId)
    (hmove : (¬ ∃ c ∈ cats, c.category = srcId) ∨ (¬ ∃ c ∈ cats, c.category = dstId) ∨
      ∀ c ∈ cats, c.category = srcId → ∀ it ∈ c.items, it.id ≠ itemId) :
    toggleItem cats categoryId itemId = cats ∧
    editItem cats categoryId itemId newText = cats ∧
    deleteItem cats categoryId itemId = cats ∧
    moveItem cats itemId srcId dstId = cats :=
  ⟨toggleItem_miss cats categoryId itemId hmiss,
    editItem_miss cats categoryId itemId newText hmiss,
    deleteItem_miss cats categoryId itemId hne hmiss,
    moveItem_miss cats itemId srcId dstId hmove⟩

/-- Witness for the amended C9: the addressed category `B` is absent for
the three id-addressed operations, and the move is a destination-only miss
(source `A` and item `1` exist, destination `C` does not). -/
theorem C9_lookup_miss_noop_witness :
    toggleItem [Category.mk "A" [⟨"1", "apple", false⟩]] "B" "1" = [Category.mk "A" [⟨"1", "apple", false⟩]] ∧
    editItem [Category.mk "A" [⟨"1", "apple", false⟩]] "B" "1" "new" = [Category.mk "A" [⟨"1", "apple", false⟩]] ∧
    deleteItem [Category.mk "A" [⟨"1", "apple", false⟩]] "B" "1" = [Category.mk "A" [⟨"1", "apple", false⟩]] ∧
    moveItem [Category.mk "A" [⟨"1", "apple", false⟩]] "1" "A" "C" = [Category.mk "A" [⟨"1", "apple", false⟩]] :=
  C9_lookup_miss_noop [Category.mk "A" [⟨"1", "apple", false⟩]] "B" "1" "new" "A" "C"
    (by decide) (by decide) (by decide)

/-- C8 fails as stated: in the second App component's router, a command
classified UNKNOWN falls back to treating the whole input as items to add,
so with a non-empty generation result the checklist changes and no
could-not-understand signal is surfaced. -/
theorem C8_counterexample :
    (handleSubmitCommand [Category.mk "A" [⟨"1", "apple", false⟩]] ⟨Intent.UNKNOWN, []⟩
        [Category.mk "B" [⟨"2", "bread", false⟩]]).categories ≠
      [Category.mk "A" [⟨"1", "apple", false⟩]] ∧
    (handleSubmitCommand [Category.mk "A" [⟨"1", "apple", false⟩]] ⟨Intent.UNKNOWN, []⟩
        [Category.mk "B" [⟨"2", "bread", false⟩]]).errorSignal ≠
      some UserSignal.couldNotUnderstand := by decide

/-- C8 amended: routing an UNKNOWN command through `handleCommand` (the
first App component's router) leaves the checklist unchanged, surfaces the
could-not-understand signal, and requests no confirmation; the second App
component's `handleSubmitInput` instead falls back to treating the whole
input as an ADD. -/
theorem C8_unknown_no_mutation (cats : List Category) (items : List String)
    (genId : Nat → String) :
    handleCommand cats ⟨Intent.UNKNOWN, items⟩ genId =
      { categories := cats, errorSignal := some UserSignal.couldNotUnderstand,
        confirmRequest := false } := rfl

/-- The total item count is the length of the flattened item list. -/
theorem totalCount_eq_length (cats : List Category) :
    totalCount cats = (allItems cats).length := by
  rw [totalCount, allItems, List.length_flatten, List.map_map]
  rfl

/-- The flattened item list distributes over category-list append. -/
theorem allItems_append (l1 l2 : List Category) :
    allItems (l1 ++ l2) = allItems l1 ++ allItems l2 := by
  simp [allItems]

/-- The flattened item list of a cons. -/
theorem allItems_cons (c : Category) (l : List Category) :
    allItems (c :: l) = c.items ++ allItems l := by
  simp [allItems]

/-- Dropping empty categories does not change the flattened item list. -/
theorem allItems_filter_nonempty (l : List Category) :
    allItems (l.filter fun c => !c.items.isEmpty) = allItems l := by
  induction l with
  | nil => rfl
  | cons c rest ih =>
    rw [List.filter_cons]
    by_cases hc : c.items.isEmpty
    · have hnil : c.items = [] := List.isEmpty_iff.mp hc
      simp [hc, allItems_cons, hnil, ih]
    · simp [hc, allItems_cons, ih]

/-- The item ids of any one category are duplicate-free when the store-wide
id list is. -/
theorem ids_nodup_of_mem (cats : List Category) (c : Category) (hc : c ∈ cats)
    (hid : idsUnique cats) : (c.items.map fun it => it.id).Nodup := by
  have hsub : List.Sublist (c.items.map fun it => it.id) (allIds cats) := by
    rw [allIds, allItems, List.map_flatten, List.map_map]
    exact List.sublist_flatten_of_mem (List.mem_map_of_mem _ hc)
  exact List.Nodup.sublist hsub hid

/-- Around an occurrence of a category in a name-nodup list, no other
category bears the same name. -/
theorem names_unique_split (l1 l2 : List Category) (c : Category)
    (hnd : namesUnique (l1 ++ c :: l2)) :
    (∀ d ∈ l1, d.category ≠ c.category) ∧ ∀ d ∈ l2, d.category ≠ c.category := by
  rw [namesUnique, List.map_append, List.map_cons] at hnd
  have h := List.nodup_append.mp hnd
  refine ⟨fun d hd heq => ?_, fun d hd heq => ?_⟩
  · exact h.2.2 (List.mem_map_of_mem _ hd) (by simp [heq])
  · exact (List.nodup_cons.mp h.2.1).1 (heq ▸ List.mem_map_of_mem _ hd)

/-- Extracting the unique element with a given key from a key-nodup list is
a permutation with the residue filter. -/
theorem perm_cons_filter_key (key : α → String) (k : String) :
    ∀ (l : List α) (a : α), a ∈ l → key a = k → (l.map key).Nodup →
      List.Perm l (a :: l.filter fun x => key x != k) := by
  intro l
  induction l with
  | nil => intro a ha; cases ha
  | cons b rest ih =>
    intro a ha hk hnd
    rw [List.map_cons, List.nodup_cons] at hnd
    rcases List.mem_cons.mp ha with hab | har
    · subst hab
      have hcond : (key a != k) = false := by simp [hk]
      have hrest : rest.filter (fun x => key x != k) = rest := by
        rw [List.filter_eq_self]
        intro x hx
        refine bne_iff_ne.mpr fun he => hnd.1 ?_
        rw [hk, ← he]
        exact List.mem_map_of_mem _ hx
      rw [List.filter_cons, hcond]
      simp only [Bool.false_eq_true, if_false]
      rw [hrest]
    · have hkb : (key b != k) = true := by
        refine bne_iff_ne.mpr fun he => hnd.1 ?_
        rw [he, ← hk]
        exact List.mem_map_of_mem _ har
      rw [List.filter_cons, hkb]
      simp only [if_true]
      exact ((ih a har hk hnd.2).cons b).trans (List.Perm.swap a b _)

/-- When the source category exists, holds the addressed item, the
destination name occurs, ids are store-wide unique and category names are
unique, the mapping phase of `moveItem` permutes the flattened item list:
the item leaves the source and lands in the destination, everything else is
untouched. -/
theorem allItems_move_perm (cats : List Category) (itemId src dst : String)
    (srcCat dstCat : Category) (itemToMove : ChecklistItem)
    (hsd : src ≠ dst)
    (hfs : cats.find? (fun c => c.category == src) = some srcCat)
    (hdmem : dstCat ∈ cats) (hdname : dstCat.category = dst)
    (hfi : srcCat.items.find? (fun it => it.id == itemId) = some itemToMove)
    (hid : idsUnique cats) (hnm : namesUnique cats) :
    List.Perm (allItems (cats.map (moveMapFn itemId src dst itemToMove))) (allItems cats) := by
  have hsname : srcCat.category = src := by simpa using List.find?_some hfs
  have hsmem : srcCat ∈ cats := List.mem_of_find?_eq_some hfs
  have hmid : itemToMove.id = itemId := by simpa using List.find?_some hfi
  have hmmem : itemToMove ∈ srcCat.items := List.mem_of_find?_eq_some hfi
  have hperm : List.Perm srcCat.items
      (itemToMove :: srcCat.items.filter fun it => it.id != itemId) :=
    perm_cons_filter_key _ itemId srcCat.items itemToMove hmmem hmid
      (ids_nodup_of_mem cats srcCat hsmem hid)
  have hFs : moveMapFn itemId src dst itemToMove srcCat =
      { srcCat with items := srcCat.items.filter fun it => it.id != itemId } := by
    rw [moveMapFn, if_pos hsname]
  have hFd : moveMapFn itemId src dst itemToMove dstCat =
      { dstCat with items := dstCat.items ++ [itemToMove] } := by
    rw [moveMapFn, if_neg (by rw [hdname]; exact fun h => hsd h.symm), if_pos hdname]
  have hFo : ∀ c : Category, c.category ≠ src → c.category ≠ dst →
      moveMapFn itemId src dst itemToMove c = c := fun c h1 h2 => by
    rw [moveMapFn, if_neg h1, if_neg h2]
  obtain ⟨as, bs, hcats⟩ := List.append_of_mem hsmem
  subst hcats
  have hsplit := names_unique_split as bs srcCat hnm
  have hdne : dstCat ≠ srcCat := fun h => hsd (by rw [← hdname, h, hsname])
  rcases List.mem_append.mp hdmem with hdas | hdbs
  · obtain ⟨u, v, has⟩ := List.append_of_mem hdas
    subst has
    have hnm' : namesUnique (u ++ dstCat :: (v ++ srcCat :: bs)) := by
      simpa [List.append_assoc] using hnm
    have hdsplit := names_unique_split u (v ++ srcCat :: bs) dstCat hnm'
    have hu : u.map (moveMapFn itemId src dst itemToMove) = u :=
      list_map_self _ _ fun c hc => hFo c
        (by rw [← hsname]; exact hsplit.1 c (by simp [hc]))
        (by rw [← hdname]; exact hdsplit.1 c hc)
    have hv : v.map (moveMapFn itemId src dst itemToMove) = v :=
      list_map_self _ _ fun c hc => hFo c
        (by rw [← hsname]; exact hsplit.1 c (by simp [hc]))
        (by rw [← hdname]; exact hdsplit.2 c (by simp [hc]))
    have hbsm : bs.map (moveMapFn itemId src dst itemToMove) = bs :=
      list_map_self _ _ fun c hc => hFo c
        (by rw [← hsname]; exact hsplit.2 c hc)
        (by rw [← hdname]; exact hdsplit.2 c (by simp [hc]))
    simp only [List.map_append, List.map_cons, hu, hv, hbsm, hFs, hFd,
      allItems_append, allItems_cons, List.append_assoc, List.singleton_append]
    refine List.Perm.append_left _ (List.Perm.append_left _ ?_)
    refine List.Perm.trans List.perm_middle.symm ?_
    exact List.Perm.append_left _ (List.Perm.append_right _ hperm.symm)
  · have hdbs' : dstCat ∈ bs := by
      rcases List.mem_cons.mp hdbs with h | h
      · exact absurd h hdne
      · exact h
    obtain ⟨u, v, hbs2⟩ := List.append_of_mem hdbs'
    subst hbs2
    have hnm' : namesUnique ((as ++ srcCat :: u) ++ dstCat :: v) := by
      simpa [List.append_assoc] using hnm
    have hdsplit := names_unique_split (as ++ srcCat :: u) v dstCat hnm'
    have ham : as.map (moveMapFn itemId src dst itemToMove) = as :=
      list_map_self _ _ fun c hc => hFo c
        (by rw [← hsname]; exact hsplit.1 c hc)
        (by rw [← hdname]; exact hdsplit.1 c (by simp [hc]))
    have hu : u.map (moveMapFn itemId src dst itemToMove) = u :=
      list_map_self _ _ fun c hc => hFo c
        (by rw [← hsname]; exact hsplit.2 c (by simp [hc]))
        (by rw [← hdname]; exact hdsplit.1 c (by simp [hc]))
    have hv : v.map (moveMapFn itemId src dst itemToMove) = v :=
      list_map_self _ _ fun c hc => hFo c
        (by rw [← hsname]; exact hsplit.2 c (by simp [hc]))
        (by rw [← hdname]; exact hdsplit.2 c hc)
    simp only [List.map_append, List.map_cons, ham, hu, hv, hFs, hFd,
      allItems_append, allItems_cons, List.append_assoc, List.singleton_append]
    refine List.Perm.append_left _ ?_
    have h1 : List.Perm (allItems u ++ (dstCat.items ++ (itemToMove :: allItems v)))
        (itemToMove :: (allItems u ++ (dstCat.items ++ allItems v))) :=
      (List.Perm.append_left _ List.perm_middle).trans List.perm_middle
    have h2 : List.Perm
        ((srcCat.items.filter fun it => it.id != itemId) ++
          (allItems u ++ (dstCat.items ++ (itemToMove :: allItems v))))
        (itemToMove :: ((srcCat.items.filter fun it => it.id != itemId) ++
          (allItems u ++ (dstCat.items ++ allItems v)))) :=
      (List.Perm.append_left _ h1).trans List.perm_middle
    exact h2.trans (List.Perm.append_right _ hperm.symm)

/-- C6 fails as stated: with two categories both named `B`, moving an item
from `A` to `B` appends a copy of the item to each `B`-named category, so
the total count grows from 3 to 4. -/
theorem C6_counterexample :
    totalCount (moveItem
        [Category.mk "A" [⟨"z", "a1", false⟩], Category.mk "B" [⟨"x", "b1", false⟩],
          Category.mk "B" [⟨"y", "b2", false⟩]] "z" "A" "B") ≠
      totalCount
        [Category.mk "A" [⟨"z", "a1", false⟩], Category.mk "B" [⟨"x", "b1", false⟩],
          Category.mk "B" [⟨"y", "b2", false⟩]] := by decide

/-- C6 amended: on a checklist with store-wide unique item ids and unique
category names, `moveItem` never changes the total item count — the item is
relocated, never duplicated or lost, though the emptied source category may
disappear. -/
theorem C6_move_conservation (cats : List Category) (itemId src dst : String)
    (hid : idsUnique cats) (hnm : namesUnique cats) :
    totalCount (moveItem cats itemId src dst) = totalCount cats := by
  rw [moveItem]
  by_cases hsd : src = dst
  · rw [if_pos hsd]
  · rw [if_neg hsd]
    cases hfs : cats.find? (fun c => c.category == src) with
    | none => rfl
    | some srcCat =>
      dsimp only
      cases hfd : cats.find? (fun c => c.category == dst) with
      | none => rfl
      | some dstCat =>
        dsimp only
        cases hfi : srcCat.items.find? (fun it => it.id == itemId) with
        | none => rfl
        | some itemToMove =>
          dsimp only
          rw [totalCount_eq_length, totalCount_eq_length, allItems_filter_nonempty]
          exact (allItems_move_perm cats itemId src dst srcCat dstCat itemToMove hsd hfs
            (List.mem_of_find?_eq_some hfd) (by simpa using List.find?_some hfd)
            hfi hid hnm).length_eq

/-- Witness for the amended C6 at a successful concrete move. -/
theorem C6_move_conservation_witness :
    totalCount (moveItem
        [Category.mk "Produce" [⟨"1", "apple", false⟩], Category.mk "Dairy" [⟨"2", "milk", false⟩]]
        "1" "Produce" "Dairy") =
      totalCount
        [Category.mk "Produce" [⟨"1", "apple", false⟩],
          Category.mk "Dairy" [⟨"2", "milk", false⟩]] :=
  C6_move_conservation _ "1" "Produce" "Dairy" (by decide) (by decide)

/-- The id list of a cons. -/
theorem allIds_cons (c : Category) (l : List Category) :
    allIds (c :: l) = (c.items.map fun it => it.id) ++ allIds l := by
  simp [allIds, allItems_cons]

/-- A found index is inside the list. -/
theorem findIndex_lt_length (p : α → Bool) :
    ∀ (l : List α) (i : Nat), findIndex p l = some i → i < l.length := by
  intro l
  induction l with
  | nil => intro i h; cases h
  | cons a rest ih =>
    intro i h
    rw [findIndex] at h
    by_cases hp : p a = true
    · rw [if_pos hp] at h
      cases h
      simp
    · rw [if_neg hp] at h
      cases hrec : findIndex p rest with
      | none => rw [hrec] at h; cases h
      | some j =>
        rw [hrec] at h
        injection h with h
        subst h
        simpa using Nat.succ_lt_succ (ih j hrec)

/-- Appending a fixed block to the items of the category at a valid index
permutes the flattened item list with the block moved to the end. -/
theorem allItems_updateAt_append (mk : List ChecklistItem) :
    ∀ (l : List Category) (i : Nat), i < l.length →
      List.Perm (allItems (updateAt l i fun c => { c with items := c.items ++ mk }))
        (allItems l ++ mk) := by
  intro l
  induction l with
  | nil => intro i hi; simp at hi
  | cons c rest ih =>
    intro i hi
    cases i with
    | zero =>
      simp only [updateAt, allItems_cons, List.append_assoc]
      exact List.Perm.append_left _ List.perm_append_comm
    | succ n =>
      simp only [updateAt, allItems_cons, List.append_assoc]
      exact List.Perm.append_left _ (ih n (by simpa using hi))

/-- The ids generated by `mkNewItems` are the id supply over consecutive
indices. -/
theorem mkNewItems_ids (genId : Nat → String) :
    ∀ (ts : List String) (k : Nat),
      (mkNewItems genId k ts).map (fun it => it.id) = (List.range' k ts.length).map genId := by
  intro ts
  induction ts with
  | nil => intro k; rfl
  | cons t ts ih =>
    intro k
    rw [mkNewItems, List.map_cons, ih (k + 1)]
    rfl

/-- A fresh injective id supply keeps the store-wide id list
duplicate-free through `addItems`. -/
theorem addItems_idsUnique (cats : List Category) (newItems : List String) (genId : Nat → String)
    (hid : idsUnique cats) (hinj : Function.Injective genId)
    (hfresh : ∀ i, genId i ∉ allIds cats) :
    idsUnique (addItems cats newItems genId) := by
  cases newItems with
  | nil => exact hid
  | cons t ts =>
    have hbig : ((allIds cats) ++ (mkNewItems genId 0 (t :: ts)).map fun it => it.id).Nodup := by
      rw [List.nodup_append]
      refine ⟨hid, ?_, ?_⟩
      · rw [mkNewItems_ids]
        exact List.Nodup.map hinj (List.nodup_range' _ _)
      · intro s hs hs'
        rw [mkNewItems_ids] at hs'
        rcases List.mem_map.mp hs' with ⟨i, _, hi⟩
        exact hfresh i (hi ▸ hs)
    rw [addItems]
    simp only [List.isEmpty_cons, Bool.false_eq_true, if_false]
    cases hf : findIndex (fun c => toLowerStr c.category == "uncategorized") cats with
    | some i =>
      have hp := allItems_updateAt_append (mkNewItems genId 0 (t :: ts)) cats i
        (findIndex_lt_length _ cats i hf)
      have hids := hp.map fun it => it.id
      rw [List.map_append] at hids
      exact List.Perm.nodup hids.symm hbig
    | none =>
      show (allIds (cats ++ [⟨"Uncategorized", mkNewItems genId 0 (t :: ts)⟩])).Nodup
      have heq : allIds (cats ++ [⟨"Uncategorized", mkNewItems genId 0 (t :: ts)⟩]) =
          allIds cats ++ (mkNewItems genId 0 (t :: ts)).map fun it => it.id := by
        rw [allIds, allItems_append, allItems_cons, List.map_append]
        simp [allIds, allItems]
      rw [heq]
      exact hbig

/-- Shrinking every category's item sequence gives a flattened-items
sublist. -/
theorem allItems_sublist_of_shrink (f : Category → Category)
    (hf : ∀ c, List.Sublist (f c).items c.items) (l : List Category) :
    List.Sublist (allItems (l.map f)) (allItems l) := by
  induction l with
  | nil => exact List.Sublist.refl _
  | cons c rest ih =>
    rw [List.map_cons, allItems_cons, allItems_cons]
    exact List.Sublist.append (hf c) ih

/-- Filtering categories gives a flattened-items sublist. -/
theorem allItems_filter_sublist (p : Category → Bool) (l : List Category) :
    List.Sublist (allItems (l.filter p)) (allItems l) := by
  induction l with
  | nil => exact List.Sublist.refl _
  | cons c rest ih =>
    rw [List.filter_cons, allItems_cons]
    by_cases hp : p c = true
    · rw [if_pos hp, allItems_cons]
      exact List.Sublist.append (List.Sublist.refl _) ih
    · rw [if_neg hp]
      exact List.Sublist.trans ih (List.sublist_append_right _ _)

/-- Id uniqueness survives any operation whose flattened item list is a
sublist of the input's. -/
theorem idsUnique_of_allItems_sublist (cats res : List Category)
    (hsub : List.Sublist (allItems res) (allItems cats)) (hid : idsUnique cats) :
    idsUnique res :=
  List.Nodup.sublist (List.Sublist.map _ hsub) hid

/-- Pointwise-equal function images under map. -/
theorem list_map_congr (l : List α) (f g : α → β) (h : ∀ a ∈ l, f a = g a) :
    l.map f = l.map g := by
  induction l with
  | nil => rfl
  | cons a rest ih => simp [h a (by simp), ih fun b hb => h b (by simp [hb])]

/-- A per-category update that fixes every item id fixes the store-wide id
list. -/
theorem allIds_map_preserve (f : Category → Category)
    (hf : ∀ c, (f c).items.map (fun it => it.id) = c.items.map fun it => it.id)
    (l : List Category) : allIds (l.map f) = allIds l := by
  induction l with
  | nil => rfl
  | cons c rest ih => rw [List.map_cons, allIds_cons, allIds_cons, hf c, ih]

/-- Subperm is compatible with prepending a fixed block. -/
theorem subperm_append_left_compat (x : List α) {l l' : List α} (h : List.Subperm l l') :
    List.Subperm (x ++ l) (x ++ l') := by
  obtain ⟨w, hw, hs⟩ := h
  exact ⟨x ++ w, List.Perm.append_left x hw, List.Sublist.append (List.Sublist.refl x) hs⟩

/-- Subperm is compatible with appending a fixed block. -/
theorem subperm_append_right_compat (x : List α) {l l' : List α} (h : List.Subperm l l') :
    List.Subperm (l ++ x) (l' ++ x) := by
  obtain ⟨w, hw, hs⟩ := h
  exact ⟨w ++ x, List.Perm.append_right x hw, List.Sublist.append hs (List.Sublist.refl x)⟩

/-- Subperm under map. -/
theorem subperm_map (f : α → β) {l l' : List α} (h : List.Subperm l l') :
    List.Subperm (l.map f) (l'.map f) := by
  obtain ⟨w, hw, hs⟩ := h
  exact ⟨w.map f, hw.map f, hs.map f⟩

/-- Nodup descends along a subperm. -/
theorem nodup_of_subperm {l l' : List α} (h : List.Subperm l l') (hnd : l'.Nodup) :
    l.Nodup := by
  obtain ⟨w, hw, hs⟩ := h
  exact List.Perm.nodup hw (List.Nodup.sublist hs hnd)

/-- One merge step consumes at most the accumulated items plus the incoming
category's items, each at most once. -/
theorem allItems_mergeStep_subperm (acc : List Category) (nc : Category) :
    List.Subperm (allItems (mergeStep acc nc)) (allItems acc ++ nc.items) := by
  rw [mergeStep_eq_spec, mergeIntoSpec]
  induction acc with
  | nil =>
    have h1 : allItems (updateFirst (fun c => normStr c.category == normStr nc.category)
        (fun c => mergeMatched c nc) nc []) = nc.items := by
      simp [updateFirst, allItems]
    have h2 : allItems ([] : List Category) ++ nc.items = nc.items := by simp [allItems]
    rw [h1, h2]
  | cons c rest ih =>
    rw [updateFirst]
    by_cases hp : (normStr c.category == normStr nc.category) = true
    · rw [if_pos hp]
      refine ⟨(c.items ++ allItems rest) ++ (nc.items.filter fun ni =>
        !((c.items.map fun it => normStr it.text).contains (normStr ni.text))), ?_, ?_⟩
      · simp only [allItems_cons, mergeMatched, List.append_assoc]
        exact List.Perm.append_left _ List.perm_append_comm
      · rw [allItems_cons, List.append_assoc, List.append_assoc]
        refine List.Sublist.append (List.Sublist.refl _) ?_
        exact List.Sublist.append (List.Sublist.refl _) (List.filter_sublist _)
    · rw [if_neg hp]
      rw [allItems_cons, allItems_cons, List.append_assoc]
      exact subperm_append_left_compat c.items ih

/-- Merging a generated checklist whose ids are unique and disjoint from
the store's keeps the store-wide id list duplicate-free. -/
theorem merge_idsUnique (cats incoming : List Category)
    (hid : idsUnique cats) (hinc : idsUnique incoming)
    (hdisj : ∀ s ∈ allIds incoming, s ∉ allIds cats) :
    idsUnique (mergeCategories cats incoming) := by
  rw [mergeCategories]
  by_cases he : cats.isEmpty = true
  · rw [if_pos he]; exact hinc
  · rw [if_neg he]
    have main : ∀ (inc acc : List Category), (allIds acc ++ allIds inc).Nodup →
        idsUnique (inc.foldl mergeStep acc) := by
      intro inc
      induction inc with
      | nil =>
        intro acc h
        rw [show allIds ([] : List Category) = [] from rfl, List.append_nil] at h
        exact h
      | cons nc rest ihh =>
        intro acc h
        rw [List.foldl_cons]
        apply ihh
        have hsub : List.Subperm (allIds (mergeStep acc nc) ++ allIds rest)
            ((allIds acc ++ nc.items.map fun it => it.id) ++ allIds rest) := by
          refine subperm_append_right_compat _ ?_
          have := subperm_map (fun it => it.id) (allItems_mergeStep_subperm acc nc)
          rw [List.map_append] at this
          exact this
        refine nodup_of_subperm hsub ?_
        rw [List.append_assoc]
        rw [allIds_cons] at h
        exact h
    apply main incoming cats
    rw [List.nodup_append]
    exact ⟨hid, hinc, fun s hs hs' => hdisj s hs' hs⟩

/-- C3 fails as stated: with two categories both named `B` (item ids all
unique), moving item `z` from `A` to `B` appends a copy of `z` to each
`B`-named category, so the result contains the id `z` twice. -/
theorem C3_counterexample :
    idsUnique
      [Category.mk "A" [⟨"z", "a1", false⟩], Category.mk "B" [⟨"x", "b1", false⟩],
        Category.mk "B" [⟨"y", "b2", false⟩]] ∧
    ¬ idsUnique (moveItem
      [Category.mk "A" [⟨"z", "a1", false⟩], Category.mk "B" [⟨"x", "b1", false⟩],
        Category.mk "B" [⟨"y", "b2", false⟩]] "z" "A" "B") := by decide

/-- C3 amended: on a checklist with store-wide unique item ids and unique
category names, no mutation — addItems (with a fresh injective id supply),
removeItems, toggleItem, moveItem, editItem, deleteItem, deleteCategory, or
mergeCategories (with a generated checklist whose ids are unique and
disjoint from the store's) — produces two items sharing an id. -/
theorem C3_id_uniqueness (cats : List Category) (op : MOp)
    (hid : idsUnique cats) (hnm : namesUnique cats) (hwf : MOpWellFormed cats op) :
    idsUnique (applyMOp cats op) := by
  cases op with
  | add newItems genId => exact addItems_idsUnique cats newItems genId hid hwf.1 hwf.2
  | remove ts =>
    show idsUnique (removeItems cats ts)
    cases ts with
    | nil => exact hid
    | cons p ps =>
      refine idsUnique_of_allItems_sublist cats _ ?_ hid
      exact List.Sublist.trans (allItems_filter_sublist _ _)
        (allItems_sublist_of_shrink _ (fun c => List.filter_sublist _) cats)
  | toggle catId itId =>
    have hf : ∀ c : Category,
        ((if c.category = catId then
          { c with items := c.items.map fun it =>
              if it.id = itId then { it with completed := !it.completed } else it }
        else c) : Category).items.map (fun it => it.id) = c.items.map fun it => it.id := by
      intro c
      by_cases hcat : c.category = catId
      · rw [if_pos hcat]
        show ((c.items.map fun it =>
          if it.id = itId then { it with completed := !it.completed } else it).map
            fun it => it.id) = _
        rw [List.map_map]
        exact list_map_congr _ _ _ fun it _ => by
          by_cases hit : it.id = itId <;> simp [Function.comp, hit]
      · rw [if_neg hcat]
    show (allIds (toggleItem cats catId itId)).Nodup
    rw [toggleItem, allIds_map_preserve _ hf cats]
    exact hid
  | move itemId src dst =>
    show idsUnique (moveItem cats itemId src dst)
    rw [moveItem]
    by_cases hsd : src = dst
    · rw [if_pos hsd]; exact hid
    · rw [if_neg hsd]
      cases hfs : cats.find? (fun c => c.category == src) with
      | none => exact hid
      | some srcCat =>
        dsimp only
        cases hfd : cats.find? (fun c => c.category == dst) with
        | none => exact hid
        | some dstCat =>
          dsimp only
          cases hfi : srcCat.items.find? (fun it => it.id == itemId) with
          | none => exact hid
          | some itemToMove =>
            dsimp only
            have hperm := allItems_move_perm cats itemId src dst srcCat dstCat itemToMove
              hsd hfs (List.mem_of_find?_eq_some hfd) (by simpa using List.find?_some hfd)
              hfi hid hnm
            have hids := hperm.map fun it => it.id
            show (allIds ((cats.map (moveMapFn itemId src dst itemToMove)).filter
              fun c => !c.items.isEmpty)).Nodup
            rw [allIds, allItems_filter_nonempty]
            exact List.Perm.nodup hids.symm hid
  | edit catId itId newText =>
    have hf : ∀ c : Category,
        ((if c.category = catId then
          { c with items := c.items.map fun it =>
              if it.id = itId then { it with text := newText } else it }
        else c) : Category).items.map (fun it => it.id) = c.items.map fun it => it.id := by
      intro c
      by_cases hcat : c.category = catId
      · rw [if_pos hcat]
        show ((c.items.map fun it =>
          if it.id = itId then { it with text := newText } else it).map
            fun it => it.id) = _
        rw [List.map_map]
        exact list_map_congr _ _ _ fun it _ => by
          by_cases hit : it.id = itId <;> simp [Function.comp, hit]
      · rw [if_neg hcat]
    show (allIds (editItem cats catId itId newText)).Nodup
    rw [editItem, allIds_map_preserve _ hf cats]
    exact hid
  | deleteItem catId itId =>
    refine idsUnique_of_allItems_sublist cats _ ?_ hid
    refine List.Sublist.trans (allItems_filter_sublist _ _)
      (allItems_sublist_of_shrink _ (fun c => ?_) cats)
    by_cases hcat : c.category = catId
    · rw [if_pos hcat]
      exact List.filter_sublist _
    · rw [if_neg hcat]
  | deleteCategory catId =>
    exact idsUnique_of_allItems_sublist cats _ (allItems_filter_sublist _ cats) hid
  | merge incoming => exact merge_idsUnique cats incoming hid hwf.1 hwf.2

/-- Witness for the amended C3 at a concrete merge of a disjoint generated
checklist. -/
theorem C3_id_uniqueness_witness :
    idsUnique (applyMOp
      [Category.mk "Produce" [⟨"1", "apple", false⟩]]
      (MOp.merge [Category.mk "produce" [⟨"2", "apple", false⟩, ⟨"3", "banana", false⟩]])) :=
  C3_id_uniqueness _ _ (by decide) (by decide) ⟨by decide, by decide⟩

end SmartChecklist
